import Mathlib

/-!
# Verification of the vibecode / nanocode agent tools

A shallow embedding, over `List Char` strings, of the tool implementations and
the streaming tool-call assembler of `src/vibecode.js` (streaming variant) and
`src/unnamed/part_000` (non-streaming "nanocode" variant).

Conventions:
* JavaScript strings are modelled as `List Char`.
* File system state touched by a tool is passed in and returned explicitly:
  `edit` takes the file's current text and returns `(message, new text)`.
* JavaScript builtins (`String.prototype.includes`, `split`, `join`, `slice`,
  `trimEnd`, `padStart`, decimal rendering of numbers) are given direct
  recursive models, each documented at its definition.
* The regular expressions produced by `matchPattern`'s replacement chain are
  modelled by a token list plus an anchored matcher `tokMatch`; the JS regex
  dot (which does not match line terminators) is modelled faithfully.
-/

set_option autoImplicit false

/-- Characters the JavaScript regex dot `.` does *not* match: the ECMAScript
LineTerminator set `\n`, `\r`, U+2028, U+2029.  Used to model the regexes
produced from `?` (compiled to `.`) and `**` (compiled to `.*`). -/
def isLineTerm (c : Char) : Bool :=
  c = '\n' || c = '\r' || c = Char.ofNat 0x2028 || c = Char.ofNat 0x2029

/-- Model of `text.includes(old)` (JS `String.prototype.includes`): `old`
occurs as a contiguous substring of `text`. -/
def includesSub (old : List Char) : List Char → Bool
  | [] => old.isEmpty
  | c :: rest => old.isPrefixOf (c :: rest) || includesSub old rest

/-- All starting positions at which `old` occurs in `text` (possibly
overlapping).  This is the specification-side notion of "distinct
occurrences"; it is not computed by the JS code, which counts non-overlapping
matches (`countOcc`). -/
def occPositions (old : List Char) : List Char → List Nat
  | [] => if old.isEmpty then [0] else []
  | c :: rest =>
    (if old.isPrefixOf (c :: rest) then [0] else []) ++
      (occPositions old rest).map (· + 1)

/-- Model of `(text.match(new RegExp(escapeRegExp(old), 'g')) || []).length`
from `edit` (src/vibecode.js lines 50): the number of non-overlapping
occurrences of the literal string `old`, scanning left to right; after a match
the scan resumes past it.  For the empty pattern the JS global regex matches
at every position including the end, giving `length + 1`. -/
def countOcc (old : List Char) : List Char → Nat
  | [] => if old.isEmpty then 1 else 0
  | c :: rest =>
    match old, rest with
    | [], rest => 1 + countOcc [] rest
    | o :: os, rest =>
      if (o :: os).isPrefixOf (c :: rest) then
        1 + countOcc (o :: os) (rest.drop os.length)
      else
        countOcc (o :: os) rest
  termination_by text => text.length
  decreasing_by
    · simp
    · simp [List.length_drop]; omega
    · simp

/-- Position of the first occurrence of `old` in the text (the search step
of JS `String.prototype.replace` with a string pattern); `none` when `old`
does not occur; an empty `old` matches at position 0. -/
def firstOccurrence (old : List Char) : List Char → Option Nat
  | [] => if old.isEmpty then some 0 else none
  | c :: rest =>
    if old.isPrefixOf (c :: rest) then some 0
    else (firstOccurrence old rest).map (· + 1)

/-- ECMAScript `GetSubstitution` for a *string* (non-regex) pattern, applied
to the replacement string: `$$` yields `$`, `$&` yields the matched string,
`$` followed by U+0060 (grave accent) yields the portion of the text before
the match, `$` followed by U+0027 (apostrophe) yields the portion after the
match, and any other `$`-sequence (including `$<digit>` — there are no
capture groups for a string pattern — and a trailing lone `$`) is copied
literally. -/
def getSubstitution (matched before after : List Char) : List Char → List Char
  | [] => []
  | '$' :: '$' :: rest => '$' :: getSubstitution matched before after rest
  | '$' :: '&' :: rest => matched ++ getSubstitution matched before after rest
  | '$' :: c :: rest =>
    if c = Char.ofNat 96 then before ++ getSubstitution matched before after rest
    else if c = Char.ofNat 39 then after ++ getSubstitution matched before after rest
    else '$' :: c :: getSubstitution matched before after rest
  | c :: rest => c :: getSubstitution matched before after rest

/-- Model of `text.replace(old, newStr)` with a string pattern (JS
`String.prototype.replace`): the text is returned unchanged when `old` does
not occur; otherwise the first occurrence is replaced by the
`GetSubstitution` expansion of `newStr` (so `newStr` is inserted verbatim
only when it contains no `$`-sequences). -/
def replaceFirst (old newS text : List Char) : List Char :=
  match firstOccurrence old text with
  | none => text
  | some p =>
    text.take p ++
      getSubstitution old (text.take p) (text.drop (p + old.length)) newS ++
      text.drop (p + old.length)

/-- Model of `text.split(old).join(newStr)` from `edit` (used when
`all=true`): replaces every non-overlapping occurrence of `old`, scanning
left to right.  For empty `old`, JS `split('')` explodes the text into
characters and `join` intersperses `newS` between them.  Unlike
`String.prototype.replace`, the split/join idiom inserts `newStr` verbatim —
no `GetSubstitution` happens on this path. -/
def replaceAll (old newS : List Char) : List Char → List Char
  | [] => []
  | c :: rest =>
    match old, rest with
    | [], rest => match rest with
      | [] => [c]
      | d :: rest2 => c :: newS ++ replaceAll [] newS (d :: rest2)
    | o :: os, rest =>
      if (o :: os).isPrefixOf (c :: rest) then
        newS ++ replaceAll (o :: os) newS (rest.drop os.length)
      else
        c :: replaceAll (o :: os) newS rest
  termination_by text => text.length
  decreasing_by
    · simp
    · simp [List.length_drop]; omega
    · simp

/-- Decimal digit characters, used to model JS number-to-string conversion. -/
def digitChar (d : Nat) : Char :=
  match d with
  | 0 => '0' | 1 => '1' | 2 => '2' | 3 => '3' | 4 => '4'
  | 5 => '5' | 6 => '6' | 7 => '7' | 8 => '8' | _ => '9'

/-- Fuel-driven helper for `natChars`; the fuel (any bound on the digit
count, here `n + 1`) only forces structural recursion and never runs out. -/
def natCharsAux : Nat → Nat → List Char
  | 0, _ => []
  | fuel + 1, n =>
    if n < 10 then [digitChar n]
    else natCharsAux fuel (n / 10) ++ [digitChar (n % 10)]

/-- Decimal rendering of a natural number, modelling JS template-literal
interpolation of a nonnegative integer (`${count}`, `${idx + 1}`,
`String(n)`). -/
def natChars (n : Nat) : List Char := natCharsAux (n + 1) n

/-- The `edit` tool (src/vibecode.js lines 42-61).  Takes the file's current
text, returns the tool's textual result together with the file text after the
call (unchanged on the error paths, since `fs.writeFileSync` is only reached
on the success path). -/
def edit (text old newS : List Char) (all : Bool) : List Char × List Char :=
  if ¬ includesSub old text then
    (String.toList "error: old_string not found", text)
  else
    let count := countOcc old text
    if ¬ all ∧ count > 1 then
      (String.toList "error: old_string appears " ++ natChars count ++
        String.toList " times, must be unique (use all=true)", text)
    else
      (String.toList "ok",
        if all then replaceAll old newS text else replaceFirst old newS text)

/-! ## The glob pattern matcher

`matchPattern` (src/vibecode.js lines 183-192) builds a regex source string by
a chain of textual replacements and tests the whole path against it
(`new RegExp("^" + regexPattern + "$").test(filepath)`).  We model the
produced regex as a token list plus an anchored matcher.

For the vibecode (streaming) variant the chain is
`.`→`\.`, `**`→`__DOUBLE_STAR__`, `*`→`[^/]*`, `__DOUBLE_STAR__`→`.*`,
`?`→`.`, so on glob syntax it yields the tokens of `Vibecode.tokenize`:
`.` an escaped literal dot, `**` the regex `.*`, a single `*` the regex
`[^/]*`, `?` the regex `.`.

For the nanocode variant (src/unnamed/part_000 lines 152-160) the chain is
`.`→`\.`, `**`→`.*`, `*`→`[^/]*`, `?`→`.`.  The `*` replacement runs *after*
the `**` replacement and therefore rewrites the star inside the freshly
produced `.*`, so `**` ends up compiled to `.[^/]*` — one regex dot followed
by `[^/]*` — which is `Nanocode.tokenize`.

The token models are faithful for patterns made of glob metacharacters and
characters that are literal in a JS regex (letters, digits, `/`, `_`, `-`,
...); patterns containing regex metacharacters such as `+` `(` `[` `\`, or
the literal text `__DOUBLE_STAR__`, are outside the modelled domain. -/

/-- One token of the regex source produced by the glob-to-regex translation. -/
inductive Tok where
  /-- A character matched literally (an escaped `\.` or a plain character). -/
  | lit : Char → Tok
  /-- The regex `.` (from `?`): any single character except a line terminator. -/
  | anyOne : Tok
  /-- The regex `[^/]*` (from `*`): any run of non-`/` characters. -/
  | segStar : Tok
  /-- The regex `.*` (from `**` in the vibecode chain): any run of
  non-line-terminator characters. -/
  | anyStar : Tok
deriving DecidableEq

/-- The backtracking loop for a star token: try the rest of the regex
(`next`) at every suffix reachable by consuming characters satisfying
`cond`.  `starLoop (tokMatch ts) cond s` is exactly whether `X*` (with `X`
the class `cond`) followed by `ts` matches `s`. -/
def starLoop (next : List Char → Bool) (cond : Char → Bool) : List Char → Bool
  | [] => next []
  | x :: xs => next (x :: xs) || (cond x && starLoop next cond xs)

/-- Anchored matching of a token list against a whole string, modelling
`new RegExp("^" + src + "$").test(input)` for the regex fragment produced by
the glob translation. -/
def tokMatch : List Tok → List Char → Bool
  | [], [] => true
  | [], _ :: _ => false
  | .lit _ :: _, [] => false
  | .lit c :: ts, x :: xs => c = x && tokMatch ts xs
  | .anyOne :: _, [] => false
  | .anyOne :: ts, x :: xs => !isLineTerm x && tokMatch ts xs
  | .segStar :: ts, s => starLoop (tokMatch ts) (fun x => !(x = '/')) s
  | .anyStar :: ts, s => starLoop (tokMatch ts) (fun x => !isLineTerm x) s

namespace Vibecode

/-- Token-level reading of the vibecode replacement chain: `**` (protected by
the `__DOUBLE_STAR__` placeholder) becomes `.*`, a remaining `*` becomes
`[^/]*`, `?` becomes `.`, anything else is literal (`.` being escaped).
Adjacent stars are consumed in pairs, left to right, mirroring the
non-overlapping global `replace(/\*\*/g, ...)`. -/
def tokenize : List Char → List Tok
  | [] => []
  | c :: rest =>
    if c = '*' then
      match rest with
      | [] => [.segStar]
      | d :: rest2 =>
        if d = '*' then .anyStar :: tokenize rest2
        else .segStar :: tokenize (d :: rest2)
    else if c = '?' then .anyOne :: tokenize rest
    else .lit c :: tokenize rest

/-- `matchPattern(filepath, pattern)` of src/vibecode.js lines 183-192. -/
def matchPattern (filepath pattern : List Char) : Bool :=
  tokMatch (tokenize pattern) filepath

end Vibecode

namespace Nanocode

/-- Token-level reading of the nanocode replacement chain: `**` first becomes
`.*`, whose star is then itself rewritten by the `*` rule to `[^/]*`, so `**`
compiles to `.[^/]*`; a single `*` becomes `[^/]*`, `?` becomes `.`. -/
def tokenize : List Char → List Tok
  | [] => []
  | c :: rest =>
    if c = '*' then
      match rest with
      | [] => [.segStar]
      | d :: rest2 =>
        if d = '*' then .anyOne :: .segStar :: tokenize rest2
        else .segStar :: tokenize (d :: rest2)
    else if c = '?' then .anyOne :: tokenize rest
    else .lit c :: tokenize rest

/-- `matchPattern(filepath, pattern)` of src/unnamed/part_000 lines 152-160. -/
def matchPattern (filepath pattern : List Char) : Bool :=
  tokMatch (tokenize pattern) filepath

end Nanocode

/-- Declarative semantics of the translated glob tokens: the claim-side
meaning of a match.  `lit c` consumes exactly `c`; `anyOne` consumes one
non-line-terminator character; `segStar` consumes any run of non-separator
characters; `anyStar` consumes any run of non-line-terminator characters;
the whole path must be consumed (anchoring). -/
inductive GlobSem : List Tok → List Char → Prop where
  | nil : GlobSem [] []
  | lit {c ts s} : GlobSem ts s → GlobSem (.lit c :: ts) (c :: s)
  | one {c ts s} : isLineTerm c = false → GlobSem ts s →
      GlobSem (.anyOne :: ts) (c :: s)
  | seg {w ts s} : (∀ c ∈ w, c ≠ '/') → GlobSem ts s →
      GlobSem (.segStar :: ts) (w ++ s)
  | any {w ts s} : (∀ c ∈ w, isLineTerm c = false) → GlobSem ts s →
      GlobSem (.anyStar :: ts) (w ++ s)

/-- `true` when the pattern contains two adjacent stars (an occurrence of
`**`), the one construct on which the two variants' translation chains
disagree. -/
def hasDoubleStar : List Char → Bool
  | [] => false
  | c :: rest =>
    match rest with
    | [] => false
    | d :: _ => (c = '*' && d = '*') || hasDoubleStar rest

/-! ## File system model and the glob / grep / read tools

A directory listing is a list of entries; a file carries its modification
time (`stat.mtimeMs`) and its text content.  The recursive `walk` closures of
`glob` (src/vibecode.js lines 68-92) and `grep` (lines 133-160) traverse the
tree identically — directories are entered in place, files are visited in
listing order — and differ only in what they do at a file, so both tools are
defined over the one traversal `walkFiles`, which returns the visited files
in walk order.

Paths: the code joins names with `path.join` starting from the base path and
converts with `path.relative('.', filepath)`; for a normalized relative base
path this is precisely the base-path segments followed by the inner segments,
joined by `/` — note it is relative to the process working directory, *not*
to the walk root.  The silent `try`/`catch` skipping of unreadable entries
has no observable effect in this model (every modelled entry is readable). -/

/-- Data stored at a regular file: `stat.mtimeMs` and the file's text. -/
structure FileData where
  mtime : Int
  content : List Char
deriving DecidableEq

/-- One directory entry: a regular file or a subdirectory with its listing. -/
inductive Entry where
  | file : List Char → FileData → Entry
  | dir : List Char → List Entry → Entry

mutual

/-- The common recursive walk of `glob` and `grep`: files of a listing in
listing order, each with its path segments (`pre` = segments leading to this
listing); a directory is walked in place before the entries after it. -/
def walkFiles (pre : List (List Char)) : List Entry → List (List (List Char) × FileData)
  | [] => []
  | e :: rest => walkEntry pre e ++ walkFiles pre rest

/-- The per-entry step of the walk: a file is emitted with its path; a
directory is walked recursively. -/
def walkEntry (pre : List (List Char)) : Entry → List (List (List Char) × FileData)
  | .file n d => [(pre ++ [n], d)]
  | .dir n sub => walkFiles (pre ++ [n]) sub

end

mutual

/-- Specification-side sanity predicate on a tree: no entry name contains a
newline (file names with embedded newlines would make the newline-joined
tool outputs ambiguous). -/
def noNlNames : List Entry → Bool
  | [] => true
  | e :: rest => noNlNamesEntry e && noNlNames rest

/-- Per-entry part of `noNlNames`. -/
def noNlNamesEntry : Entry → Bool
  | .file n _ => decide ('\n' ∉ n)
  | .dir n sub => decide ('\n' ∉ n) && noNlNames sub

end

mutual

/-- Specification-side sanity predicate on a tree: no entry has an empty
name (real directory listings never produce one). -/
def nonEmptyNames : List Entry → Bool
  | [] => true
  | e :: rest => nonEmptyNamesEntry e && nonEmptyNames rest

/-- Per-entry part of `nonEmptyNames`. -/
def nonEmptyNamesEntry : Entry → Bool
  | .file n _ => decide (n ≠ [])
  | .dir n sub => decide (n ≠ []) && nonEmptyNames sub

end

/-- Model of `Array.prototype.join(sep)` for a list of strings (and of
`path.join` when applied to path segments). -/
def joinSep (sep : Char) : List (List Char) → List Char
  | [] => []
  | p :: ps =>
    match ps with
    | [] => p
    | _ :: _ => p ++ sep :: joinSep sep ps

/-- Ordering used by `results.sort((a, b) => b.mtime - a.mtime)`:
descending by modification time. -/
def mtimeGe (a b : List Char × Int) : Prop := b.2 ≤ a.2

instance : DecidableRel mtimeGe := fun a b => inferInstanceAs (Decidable (b.2 ≤ a.2))

instance : IsTotal (List Char × Int) mtimeGe := ⟨fun a b => Int.le_total b.2 a.2⟩

instance : IsTrans (List Char × Int) mtimeGe :=
  ⟨fun _ _ _ h1 h2 => Int.le_trans h2 h1⟩

/-- The matching-and-collection step of `glob` (src/vibecode.js lines 78-81):
for each file of the walk, its cwd-relative path is tested against the
pattern; matches are collected with their modification time, in walk order. -/
def globResults (pattern : List Char) (basePath : List (List Char))
    (entries : List Entry) : List (List Char × Int) :=
  (walkFiles basePath entries).filterMap fun pd =>
    let rel := joinSep '/' pd.1
    if Vibecode.matchPattern rel pattern then some (rel, pd.2.mtime) else none

/-- The `glob` tool (src/vibecode.js lines 63-95): collect matches, sort
descending by mtime (`Array.prototype.sort` is stable, as is
`List.insertionSort`), join with newlines, `|| "none"` on the empty string. -/
def glob (pattern : List Char) (basePath : List (List Char))
    (entries : List Entry) : List Char :=
  let sorted := (globResults pattern basePath entries).insertionSort mtimeGe
  let out := joinSep '\n' (sorted.map (·.1))
  if out = [] then String.toList "none" else out

/-- Model of `content.split('\n')` (JS `String.prototype.split` with a
one-character separator): the list of separator-free pieces; never empty;
`"".split('\n')` is `[""]`. -/
def splitNl : List Char → List (List Char)
  | [] => [[]]
  | c :: rest =>
    if c = '\n' then [] :: splitNl rest
    else
      match splitNl rest with
      | [] => [[c]]
      | l :: ls => (c :: l) :: ls

/-- Model of `line.trimEnd()` restricted to ASCII whitespace (space, tab,
carriage return, newline — the whitespace that can actually occur inside a
`split('\n')` piece of a text file). -/
def trimEnd (l : List Char) : List Char :=
  (l.reverse.dropWhile (·.isWhitespace)).reverse

/-- One recorded grep hit (src/vibecode.js line 147):
`` `${filepath}:${idx + 1}:${line.trimEnd()}` ``. -/
def fmtHit (filepath : List Char) (n : Nat) (line : List Char) : List Char :=
  filepath ++ ':' :: natChars n ++ ':' :: trimEnd line

/-- The per-file part of `grep` (src/vibecode.js lines 143-149): split the
content into lines and record every line the pattern accepts, with its
1-based line number.  The JS regex `new RegExp(args.pat)` is abstracted as
the line predicate `pat`. -/
def grepFile (pat : List Char → Bool) (filepath content : List Char) : List (List Char) :=
  (splitNl content).enum.filterMap fun il =>
    if pat il.2 then some (fmtHit filepath (il.1 + 1) il.2) else none

/-- All grep hits across the walk, in walk order. -/
def grepHits (pat : List Char → Bool) (basePath : List (List Char))
    (entries : List Entry) : List (List Char) :=
  (walkFiles basePath entries).flatMap fun pd =>
    grepFile pat (joinSep '/' pd.1) pd.2.content

/-- The `grep` tool (src/vibecode.js lines 128-162):
`hits.slice(0, 50).join('\n') || "none"`. -/
def grep (pat : List Char → Bool) (basePath : List (List Char))
    (entries : List Entry) : List Char :=
  let out := joinSep '\n' ((grepHits pat basePath entries).take 50)
  if out = [] then String.toList "none" else out

/-- JS `Array.prototype.slice(start, end)` for `0 ≤ start ≤ end`: the
elements with indices in `[start, min end length)`. -/
def jsSlice {α : Type} (l : List α) (start stop : Nat) : List α :=
  (l.take stop).drop start

/-- Model of `args.limit || lines.length` (src/vibecode.js line 30): JS `||`
treats the number `0` like an absent argument, so both `none` and `some 0`
fall back to the full line count. -/
def effLimit (lim : Option Nat) (len : Nat) : Nat :=
  match lim with
  | none => len
  | some 0 => len
  | some (k + 1) => k + 1

/-- Model of `String(n).padStart(4)`: pad on the left with spaces to width 4
(numbers of four or more digits are unpadded). -/
def padStart4 (s : List Char) : List Char :=
  List.replicate (4 - s.length) ' ' ++ s

/-- The numbering map of `read` (src/vibecode.js lines 32-34):
`` selected.map((line, idx) => `${String(offset + idx + 1).padStart(4)}| ${line}`) ``,
written with an explicit running counter (`start` = `offset + idx`). -/
def numberLines (start : Nat) : List (List Char) → List (List Char)
  | [] => []
  | l :: ls =>
    (padStart4 (natChars (start + 1)) ++ '|' :: ' ' :: l) :: numberLines (start + 1) ls

/-- The `read` tool (src/vibecode.js lines 27-35): split into lines, take
`lines.slice(offset, offset + limit)` with `offset = args.offset || 0` and
`limit = args.limit || lines.length`, number each selected line, join. -/
def Vibecode.read (content : List Char) (off lim : Option Nat) : List Char :=
  let lines := splitNl content
  let offset := off.getD 0
  let limit := effLimit lim lines.length
  let selected := jsSlice lines offset (offset + limit)
  joinSep '\n' (numberLines offset selected)

/-! ## The streaming tool-call assembler

src/vibecode.js lines 397-412.  Each streamed delta may carry tool-call
fragments, each with an `index`; the loop keeps a sparse JS array
`toolCalls`, creating `{ id: tc.id, function: { name: "", arguments: "" } }`
the first time an index appears and appending the fragment's `name` and
`arguments` text to the accumulator at that index; at stream end
`toolCalls.filter(Boolean)` compacts the sparse array, keeping index order.
The sparse array is modelled as a function `Nat → Option ToolCallAcc`, and
compaction as `filterMap` over the index range `[0, arrayLength)`. -/

/-- One tool-call fragment of a streamed delta (`tc` in the source): its
`index`, optional `id` (present only on the first fragment of a call in
practice, but nothing is assumed), and possibly-empty `name` and `arguments`
text pieces. -/
structure Fragment where
  index : Nat
  id : Option (List Char)
  name : List Char
  arguments : List Char
deriving DecidableEq

/-- The accumulator stored at one index of the `toolCalls` array. -/
structure ToolCallAcc where
  id : Option (List Char)
  name : List Char
  arguments : List Char
deriving DecidableEq

/-- Processing of one fragment (src/vibecode.js lines 398-407): initialize
the slot at `tc.index` if empty (taking the fragment's `id`), then append the
fragment's `name` and `arguments` text.  The `if (tc.function.name)` guards
in the source only skip appending an empty (falsy) string, which is a no-op,
so the append is unconditional here. -/
def applyFragment (tcs : Nat → Option ToolCallAcc) (tc : Fragment) :
    Nat → Option ToolCallAcc := fun i =>
  if i = tc.index then
    let cur := (tcs tc.index).getD { id := tc.id, name := [], arguments := [] }
    some { id := cur.id, name := cur.name ++ tc.name,
           arguments := cur.arguments ++ tc.arguments }
  else tcs i

/-- The state of the `toolCalls` array after the whole stream: fragments
processed in arrival order. -/
def assembleFinal (frags : List Fragment) : Nat → Option ToolCallAcc :=
  frags.foldl applyFragment (fun _ => none)

/-- The `length` of the sparse `toolCalls` array: one past the largest index
assigned (0 when no fragment arrived). -/
def arrayLength (frags : List Fragment) : Nat :=
  frags.foldr (fun f acc => max (f.index + 1) acc) 0

/-- `toolCalls = toolCalls.filter(Boolean)` (src/vibecode.js line 412):
enumerate the array's index range in order and keep the filled slots. -/
def assemble (frags : List Fragment) : List ToolCallAcc :=
  (List.range (arrayLength frags)).filterMap (assembleFinal frags)

/-- Specification-side description of the slot at index `i`: the fragments
whose `index` is `i`, in arrival order. -/
def fragmentsAt (frags : List Fragment) (i : Nat) : List Fragment :=
  frags.filter fun f => f.index = i

/-- Specification-side description of the assembled call at index `i`: `none`
when no fragment arrived for `i`; otherwise the `id` of the first such
fragment together with the concatenation, in arrival order, of all its `name`
pieces and of all its `arguments` pieces. -/
def specAt (frags : List Fragment) (i : Nat) : Option ToolCallAcc :=
  match fragmentsAt frags i with
  | [] => none
  | f :: fs =>
    some { id := f.id,
           name := (((f :: fs).map Fragment.name)).flatten,
           arguments := (((f :: fs).map Fragment.arguments)).flatten }

/-- Specification-side helper: a slot accumulator extended by a further
batch of fragments (their `name`/`arguments` pieces appended in order). -/
def extendAcc (acc : ToolCallAcc) (fs : List Fragment) : ToolCallAcc :=
  { id := acc.id,
    name := acc.name ++ (fs.map Fragment.name).flatten,
    arguments := acc.arguments ++ (fs.map Fragment.arguments).flatten }

/-! ## The tool dispatcher and the tool-execution round

`runTool` (src/vibecode.js lines 239-245) wraps the handler call in
`try`/`catch`.  A handler is modelled as a function into `Except`, a thrown
exception being `Except.error` with the exception's message; the lookup table
`TOOLS` is a partial map from tool names.  An unknown name makes
`TOOLS[name].fn` throw a `TypeError` before the handler runs; that throw is
caught by the same `catch`, producing `error: <TypeError message>`. -/

/-- The `TypeError` message thrown by `TOOLS[name].fn(args)` when `name` is
not a key of `TOOLS` (Node: reading `.fn` of `undefined`). -/
def unknownToolMsg : List Char :=
  String.toList "Cannot read properties of undefined (reading 'fn')"

/-- `runTool(name, args)` (src/vibecode.js lines 239-245), parametric in the
tool table and in the (shared) argument type of the handlers. -/
def runTool {α : Type} (tools : List Char → Option (α → Except (List Char) (List Char)))
    (name : List Char) (args : α) : List Char :=
  match tools name with
  | none => String.toList "error: " ++ unknownToolMsg
  | some fn =>
    match fn args with
    | .ok s => s
    | .error msg => String.toList "error: " ++ msg

/-- A completed tool call as consumed by the execution loop
(src/vibecode.js lines 420-444): `toolCall.id`, `toolCall.function.name`,
`toolCall.function.arguments`. -/
structure AssembledCall where
  id : Option (List Char)
  name : List Char
  arguments : List Char
deriving DecidableEq

/-- One tool-result message pushed by the loop (src/vibecode.js lines
438-443): `{ role: "tool", tool_call_id, name, content }`. -/
structure ToolMsg where
  tool_call_id : Option (List Char)
  name : List Char
  content : List Char
deriving DecidableEq

/-- The tool-execution round of `main` (src/vibecode.js lines 420-444):
`for (const toolCall of toolCalls) { const toolArgs =
JSON.parse(toolCall.function.arguments); ... const result =
runTool(toolName, toolArgs); ... messages.push({...}) }`.

`JSON.parse` is abstracted as `parse`; a parse failure is a thrown exception,
which is *not* caught inside the loop — it unwinds to the `catch` at the
turn boundary (line 448).  The result is the list of tool-result messages
actually pushed before the round ended, and `true` when the whole round
completed without a throw. -/
def runToolRound {α : Type} (parse : List Char → Option α)
    (tools : List Char → Option (α → Except (List Char) (List Char))) :
    List AssembledCall → List ToolMsg × Bool
  | [] => ([], true)
  | c :: rest =>
    match parse c.arguments with
    | none => ([], false)
    | some args =>
      let result := runTool tools c.name args
      let next := runToolRound parse tools rest
      ({ tool_call_id := c.id, name := c.name, content := result } :: next.1, next.2)

/-! # Lemmas and claim theorems -/

/-! ## Occurrences, `replaceFirst` and the `edit` tool -/

/-- `includesSub` with the empty pattern is always `true` (JS
`text.includes("")`). -/
theorem includesSub_nil_left (text : List Char) : includesSub [] text = true := by
  cases text <;> simp [includesSub, List.isPrefixOf]

/-- A nonempty pattern occurring somewhere (as a prefix of some suffix) is
found by `includesSub`. -/
theorem includesSub_of_prefixOf_drop (o : Char) (os : List Char) :
    ∀ (text : List Char) (p : Nat),
      (o :: os).isPrefixOf (text.drop p) = true → includesSub (o :: os) text = true
  | [], p, h => by simp [List.isPrefixOf] at h
  | c :: rest, 0, h => by
    simp only [List.drop_zero] at h
    simp [includesSub, h]
  | c :: rest, p + 1, h => by
    simp only [List.drop_succ_cons] at h
    simp [includesSub, includesSub_of_prefixOf_drop o os rest p h]

/-- A positive non-overlapping count implies the pattern is found by
`includesSub`. -/
theorem includesSub_of_countOcc_pos (o : Char) (os : List Char) :
    ∀ (text : List Char), 0 < countOcc (o :: os) text →
      includesSub (o :: os) text = true
  | [], h => by simp [countOcc] at h
  | c :: rest, h => by
    by_cases hp : (o :: os).isPrefixOf (c :: rest) = true
    · simp [includesSub, hp]
    · rw [countOcc] at h
      simp only [hp, if_false] at h
      simp [includesSub, includesSub_of_countOcc_pos o os rest h]

/-- Membership in `occPositions` for a nonempty pattern: exactly the
positions at which the pattern is a prefix of the corresponding suffix. -/
theorem mem_occPositions (o : Char) (os : List Char) :
    ∀ (text : List Char) (p : Nat),
      p ∈ occPositions (o :: os) text ↔ (o :: os).isPrefixOf (text.drop p) = true
  | [], p => by
    simp [occPositions, List.isPrefixOf]
  | c :: rest, p => by
    cases p with
    | zero =>
      by_cases hp : (o :: os).isPrefixOf (c :: rest) = true <;>
        simp [occPositions, hp]
    | succ q =>
      have ih := mem_occPositions o os rest q
      by_cases hp : (o :: os).isPrefixOf (c :: rest) = true <;>
        simp [occPositions, hp, ih, List.drop_succ_cons]

/-- With the empty pattern, every position up to the length is an occurrence
(JS: an empty global regex matches `length + 1` times). -/
theorem occPositions_nil_pattern :
    ∀ text : List Char, occPositions [] text = List.range (text.length + 1)
  | [] => by
    rw [occPositions]
    simp
    decide
  | c :: rest => by
    rw [occPositions]
    simp [List.isPrefixOf, occPositions_nil_pattern rest, List.range_succ_eq_map]

/-- A nonempty pattern occurring nowhere has non-overlapping count zero. -/
theorem countOcc_eq_zero_of_no_occ (o : Char) (os : List Char) :
    ∀ (text : List Char),
      (∀ p, (o :: os).isPrefixOf (text.drop p) = false) →
      countOcc (o :: os) text = 0
  | [], _ => by simp [countOcc]
  | c :: rest, h => by
    have h0 := h 0
    simp only [List.drop_zero] at h0
    rw [countOcc]
    simp only [h0, if_false]
    exact countOcc_eq_zero_of_no_occ o os rest fun p => by
      have := h (p + 1)
      simpa [List.drop_succ_cons] using this

/-- If a nonempty pattern has exactly one occurrence (in the all-positions
sense), its non-overlapping count is also 1. -/
theorem countOcc_of_unique (o : Char) (os : List Char) :
    ∀ (text : List Char) (p : Nat),
      occPositions (o :: os) text = [p] → countOcc (o :: os) text = 1
  | [], p, h => by simp [occPositions] at h
  | c :: rest, p, h => by
    by_cases hp : (o :: os).isPrefixOf (c :: rest) = true
    · rw [occPositions] at h
      simp only [hp, if_true] at h
      have hrest : occPositions (o :: os) rest = [] := by
        cases heq : occPositions (o :: os) rest with
        | nil => rfl
        | cons a as => rw [heq] at h; simp at h
      rw [countOcc]
      simp only [hp, if_true]
      have hzero : countOcc (o :: os) (rest.drop os.length) = 0 := by
        apply countOcc_eq_zero_of_no_occ
        intro q
        rw [List.drop_drop]
        by_contra hq
        have hmem : (os.length + q) ∈ occPositions (o :: os) rest :=
          (mem_occPositions o os rest (os.length + q)).2 (by
            cases hval : (o :: os).isPrefixOf (rest.drop (os.length + q)) with
            | true => rfl
            | false => exact absurd hval hq)
        rw [hrest] at hmem
        exact absurd hmem (List.not_mem_nil _)
      omega
    · rw [occPositions, if_neg hp, List.nil_append] at h
      rw [countOcc, if_neg hp]
      cases heq : occPositions (o :: os) rest with
      | nil => rw [heq] at h; simp at h
      | cons a as =>
        rw [heq] at h
        simp only [List.map_cons, List.cons.injEq] at h
        have has : as = [] := List.map_eq_nil_iff.1 h.2
        subst has
        exact countOcc_of_unique o os rest a heq

/-- The first occurrence found by the replace search is the head of the
occurrence-position list (stated for a nonempty pattern). -/
theorem firstOccurrence_head (o : Char) (os : List Char) :
    ∀ (text : List Char) (p : Nat) (l : List Nat),
      occPositions (o :: os) text = p :: l →
      firstOccurrence (o :: os) text = some p
  | [], _, _, h => by simp [occPositions] at h
  | c :: rest, p, l, h => by
    by_cases hp : (o :: os).isPrefixOf (c :: rest) = true
    · rw [occPositions] at h
      simp only [hp, if_true, List.singleton_append, List.cons.injEq] at h
      rw [firstOccurrence, if_pos hp, h.1]
    · rw [occPositions, if_neg hp, List.nil_append] at h
      cases heq : occPositions (o :: os) rest with
      | nil => rw [heq] at h; simp at h
      | cons a as =>
        rw [heq] at h
        simp only [List.map_cons, List.cons.injEq] at h
        rw [firstOccurrence, if_neg hp, firstOccurrence_head o os rest a as heq]
        simp [h.1]

/-- When a nonempty pattern has exactly one occurrence, at position `p`,
`replaceFirst` yields the text around position `p` with the
`GetSubstitution` expansion of `newS` in place of the matched slice. -/
theorem replaceFirst_of_unique (o : Char) (os newS text : List Char) (p : Nat)
    (h : occPositions (o :: os) text = [p]) :
    replaceFirst (o :: os) newS text =
      text.take p ++
        getSubstitution (o :: os) (text.take p)
          (text.drop (p + (o :: os).length)) newS ++
        text.drop (p + (o :: os).length) := by
  have hfo : firstOccurrence (o :: os) text = some p :=
    firstOccurrence_head o os text p [] h
  simp only [replaceFirst, hfo]

/-- Claim C5 (amended): for every file text and strings `old`, `new` such
that `old` occurs exactly once in the text (at position `p`),
`edit(path, old, new)` reports `ok` and produces the original text with that
one occurrence of `old` replaced by the ECMAScript `GetSubstitution`
expansion of `new` (`$$` → `$`, `$&` → `old`, `$` U+0060 → the text before
the occurrence, `$` U+0027 → the text after it, everything else literal);
every character outside the replaced slice is unchanged, and a `new`
containing no `$`-sequences is inserted verbatim.  The claim's original
wording — the occurrence is replaced by `new` itself — fails whenever `new`
contains a `$`-pattern; see the counterexample. -/
theorem edit_unique_replacement (text old newS : List Char) (p : Nat)
    (h : occPositions old text = [p]) :
    edit text old newS false =
      (String.toList "ok",
        text.take p ++
          getSubstitution old (text.take p) (text.drop (p + old.length)) newS ++
          text.drop (p + old.length)) := by
  cases old with
  | nil =>
    rw [occPositions_nil_pattern] at h
    have hlen : text.length + 1 = 1 := by
      have hc := congrArg List.length h
      simpa using hc
    have htext : text = [] := by
      cases text with
      | nil => rfl
      | cons a as => simp at hlen
    subst htext
    have hp : p = 0 := by
      simp [List.range_succ] at h
      omega
    subst hp
    simp [edit, includesSub, countOcc, replaceFirst, firstOccurrence]
  | cons o os =>
    have hpre : (o :: os).isPrefixOf (text.drop p) = true := by
      rw [← mem_occPositions o os text p, h]
      exact List.mem_singleton.2 rfl
    have hinc : includesSub (o :: os) text = true :=
      includesSub_of_prefixOf_drop o os text p hpre
    have hcount : countOcc (o :: os) text = 1 := countOcc_of_unique o os text p h
    rw [edit]
    simp only [hinc, not_true, if_false, hcount]
    rw [replaceFirst_of_unique o os newS text p h]
    simp

/-- Witness for the amended C5: in the file text `xay` the string `a` occurs
exactly once, at position 1; `edit` with `new = b$&c` reports `ok` and
inserts the expansion of `b$&c` (which is `bac`). -/
theorem edit_unique_replacement_witness :
    occPositions (String.toList "a") (String.toList "xay") = [1] ∧
    edit (String.toList "xay") (String.toList "a") (String.toList "b$&c") false =
      (String.toList "ok",
        (String.toList "xay").take 1 ++
          getSubstitution (String.toList "a") ((String.toList "xay").take 1)
            ((String.toList "xay").drop (1 + (String.toList "a").length))
            (String.toList "b$&c") ++
          (String.toList "xay").drop (1 + (String.toList "a").length)) :=
  ⟨by decide,
   edit_unique_replacement (String.toList "xay") (String.toList "a")
     (String.toList "b$&c") 1 (by decide)⟩

/-- Counterexample to claim C5 as stated: in `xy` the string `x` occurs
exactly once, yet `edit` with `new = $$` does *not* produce `$$y` (the text
with `x` replaced by `new`): JS `String.prototype.replace` interprets `$$`
via `GetSubstitution`, and the file becomes `$y`. -/
theorem edit_dollar_cex :
    occPositions ['x'] ['x', 'y'] = [0] ∧
    (edit ['x', 'y'] ['x'] ['$', '$'] false).2 = ['$', 'y'] ∧
    (edit ['x', 'y'] ['x'] ['$', '$'] false).2 ≠ ['$', '$', 'y'] := by
  have hcount : countOcc ['x'] ['x', 'y'] = 1 := by
    simp [countOcc, List.isPrefixOf]
  have heval : edit ['x', 'y'] ['x'] ['$', '$'] false =
      (String.toList "ok", ['$', 'y']) := by
    simp only [edit, hcount]
    decide
  refine ⟨by decide, ?_, ?_⟩
  · rw [heval]
  · rw [heval]
    decide

/-- Counterexample to claim C2 as stated: in the file text `aaa` the string
`aa` has two *distinct* occurrences (positions 0 and 1), yet `edit` without
`all` does not fail — the JS global-regex count sees only one
(non-overlapping) match, so the tool reports `ok` and rewrites the file. -/
theorem edit_distinct_occurrences_cex :
    occPositions (String.toList "aa") (String.toList "aaa") = [0, 1] ∧
    (edit (String.toList "aaa") (String.toList "aa") ['b'] false).1 =
      String.toList "ok" ∧
    (edit (String.toList "aaa") (String.toList "aa") ['b'] false).2 ≠
      String.toList "aaa" := by
  have hcount : countOcc (String.toList "aa") (String.toList "aaa") = 1 := by
    simp [countOcc, List.isPrefixOf]
  have heval : edit (String.toList "aaa") (String.toList "aa") ['b'] false =
      (String.toList "ok", ['b', 'a']) := by
    simp only [edit, hcount]
    decide
  refine ⟨by decide, ?_, ?_⟩
  · rw [heval]
  · rw [heval]
    decide

/-- Claim C2 (amended): for every file text containing more than one
*non-overlapping* occurrence of `old` (the count `N` computed by the code's
global regex), `edit` without `all` returns the error string reporting `N`
and the file text is unchanged. -/
theorem edit_multiple_count (text old newS : List Char)
    (h : 1 < countOcc old text) :
    edit text old newS false =
      (String.toList "error: old_string appears " ++ natChars (countOcc old text) ++
        String.toList " times, must be unique (use all=true)", text) := by
  have hinc : includesSub old text = true := by
    cases old with
    | nil => exact includesSub_nil_left text
    | cons o os => exact includesSub_of_countOcc_pos o os text (by omega)
  rw [edit]
  simp only [hinc, not_true, if_false]
  simp [h]

/-- Witness for the amended C2: in `abab` the string `ab` has
non-overlapping count 2, and `edit` without `all` reports the count and
leaves the text unchanged. -/
theorem edit_multiple_count_witness :
    1 < countOcc (String.toList "ab") (String.toList "abab") ∧
    edit (String.toList "abab") (String.toList "ab") ['b'] false =
      (String.toList "error: old_string appears " ++
        natChars (countOcc (String.toList "ab") (String.toList "abab")) ++
        String.toList " times, must be unique (use all=true)",
       String.toList "abab") :=
  ⟨by simp [countOcc, List.isPrefixOf],
   edit_multiple_count _ _ _ (by simp [countOcc, List.isPrefixOf])⟩

/-! ## Glob matcher semantics (C3, C10) -/

/-- Soundness of the star backtracking loop: a successful `starLoop` splits
the input into a consumed run satisfying `cond` and a remainder accepted by
`next`. -/
theorem starLoop_sound (next : List Char → Bool) (cond : Char → Bool) :
    ∀ s, starLoop next cond s = true →
      ∃ w s', s = w ++ s' ∧ (∀ c ∈ w, cond c = true) ∧ next s' = true
  | [], h => ⟨[], [], rfl, by simp, h⟩
  | x :: xs, h => by
    rw [starLoop] at h
    simp only [Bool.or_eq_true, Bool.and_eq_true] at h
    rcases h with h1 | ⟨hc, hs⟩
    · exact ⟨[], x :: xs, rfl, by simp, h1⟩
    · obtain ⟨w, s', heq, hw, hn⟩ := starLoop_sound next cond xs hs
      refine ⟨x :: w, s', by simp [heq], ?_, hn⟩
      intro c hcmem
      rcases List.mem_cons.1 hcmem with hcx | hcw
      · exact hcx ▸ hc
      · exact hw c hcw

/-- Completeness of the star backtracking loop. -/
theorem starLoop_complete (next : List Char → Bool) (cond : Char → Bool) :
    ∀ (w s' : List Char), (∀ c ∈ w, cond c = true) → next s' = true →
      starLoop next cond (w ++ s') = true
  | [], s', _, hn => by
    cases s' with
    | nil => simpa [starLoop] using hn
    | cons x xs => simp [starLoop, hn]
  | x :: w, s', hw, hn => by
    rw [List.cons_append, starLoop]
    simp only [Bool.or_eq_true, Bool.and_eq_true]
    exact Or.inr ⟨hw x (by simp),
      starLoop_complete next cond w s' (fun c hc => hw c (by simp [hc])) hn⟩

/-- Soundness of the token matcher against the declarative semantics. -/
theorem tokMatch_sound : ∀ (ts : List Tok) (s : List Char),
    tokMatch ts s = true → GlobSem ts s
  | [], [], _ => .nil
  | [], _ :: _, h => by simp [tokMatch] at h
  | .lit c :: ts, [], h => by simp [tokMatch] at h
  | .lit c :: ts, x :: xs, h => by
    rw [tokMatch] at h
    simp only [Bool.and_eq_true, decide_eq_true_eq] at h
    obtain ⟨hcx, hm⟩ := h
    subst hcx
    exact .lit (tokMatch_sound ts xs hm)
  | .anyOne :: ts, [], h => by simp [tokMatch] at h
  | .anyOne :: ts, x :: xs, h => by
    rw [tokMatch] at h
    simp only [Bool.and_eq_true, Bool.not_eq_true'] at h
    obtain ⟨hlt, hm⟩ := h
    exact .one hlt (tokMatch_sound ts xs hm)
  | .segStar :: ts, s, h => by
    rw [tokMatch] at h
    obtain ⟨w, s', heq, hw, hn⟩ := starLoop_sound (tokMatch ts) _ s h
    subst heq
    refine GlobSem.seg ?_ (tokMatch_sound ts s' hn)
    intro c hc
    have := hw c hc
    simpa using this
  | .anyStar :: ts, s, h => by
    rw [tokMatch] at h
    obtain ⟨w, s', heq, hw, hn⟩ := starLoop_sound (tokMatch ts) _ s h
    subst heq
    refine GlobSem.any ?_ (tokMatch_sound ts s' hn)
    intro c hc
    have := hw c hc
    simpa using this

/-- Completeness of the token matcher against the declarative semantics. -/
theorem tokMatch_complete {ts : List Tok} {s : List Char}
    (h : GlobSem ts s) : tokMatch ts s = true := by
  induction h with
  | nil => rfl
  | lit _ ih => rw [tokMatch]; simp [ih]
  | one hc _ ih => rw [tokMatch]; simp [hc, ih]
  | seg hw _ ih =>
    rw [tokMatch]
    exact starLoop_complete _ _ _ _ (fun c hc => by simp [hw c hc]) ih
  | any hw _ ih =>
    rw [tokMatch]
    exact starLoop_complete _ _ _ _ (fun c hc => by simp [hw c hc]) ih

/-- Claim C3 (amended): the translated regex is anchored — it must accept the
*entire* path — and the token meanings are: a literal character (in
particular `.`) matches exactly itself, `**` matches any sequence of
*non-line-terminator* characters including `/` (greedy search over all
splits), `*` matches any sequence of non-separator characters, and `?`
matches exactly one *non-line-terminator* character.  (`GlobSem` is the
declarative statement of exactly these clauses.)  The claim's original
wording — `?` matches *any* single character and `**` *any* sequence — fails
on line terminators, because the JS regex dot produced for `?` and `**` does
not match them; see the counterexample. -/
theorem matchPattern_glob_semantics (pattern path : List Char) :
    Vibecode.matchPattern path pattern = true ↔
      GlobSem (Vibecode.tokenize pattern) path :=
  ⟨fun h => tokMatch_sound _ _ h, fun h => tokMatch_complete h⟩

/-- Counterexample to claim C3 as stated: `?` does not match the single
character `\n` (the JS regex dot excludes line terminators), and `**` does
not match the sequence `a\nb` even though it is a plain character sequence. -/
theorem matchPattern_lineTerm_cex :
    Vibecode.matchPattern ['\n'] ['?'] = false ∧
    Vibecode.matchPattern ['a', '\n', 'b'] ['a', '*', '*', 'b'] = false := by
  decide

/-- Unfolding step for `Vibecode.tokenize` at a single `*`. -/
theorem vibecode_tokenize_single_star (c : Char) (rest : List Char) (h : ¬ c = '*') :
    Vibecode.tokenize ('*' :: c :: rest) = .segStar :: Vibecode.tokenize (c :: rest) := by
  conv_lhs => rw [Vibecode.tokenize.eq_def]
  simp [h]

/-- Unfolding step for `Vibecode.tokenize` at a literal character. -/
theorem vibecode_tokenize_literal (c : Char) (rest : List Char)
    (h1 : ¬ c = '*') (h2 : ¬ c = '?') :
    Vibecode.tokenize (c :: rest) = .lit c :: Vibecode.tokenize rest := by
  conv_lhs => rw [Vibecode.tokenize.eq_def]
  simp [h1, h2]

/-- Unfolding step for `Nanocode.tokenize` at a single `*`. -/
theorem nanocode_tokenize_single_star (c : Char) (rest : List Char) (h : ¬ c = '*') :
    Nanocode.tokenize ('*' :: c :: rest) = .segStar :: Nanocode.tokenize (c :: rest) := by
  conv_lhs => rw [Nanocode.tokenize.eq_def]
  simp [h]

/-- Unfolding step for `Nanocode.tokenize` at a literal character. -/
theorem nanocode_tokenize_literal (c : Char) (rest : List Char)
    (h1 : ¬ c = '*') (h2 : ¬ c = '?') :
    Nanocode.tokenize (c :: rest) = .lit c :: Nanocode.tokenize rest := by
  conv_lhs => rw [Nanocode.tokenize.eq_def]
  simp [h1, h2]

/-- The two variants tokenize any `**`-free pattern identically. -/
theorem tokenize_agree :
    ∀ (pattern : List Char), hasDoubleStar pattern = false →
      Vibecode.tokenize pattern = Nanocode.tokenize pattern
  | [], _ => rfl
  | [c], _ => by
    by_cases hs : c = '*'
    · subst hs; rfl
    · by_cases hq : c = '?'
      · subst hq; rfl
      · rw [vibecode_tokenize_literal c [] hs hq, nanocode_tokenize_literal c [] hs hq]
        rfl
  | c :: d :: rest, h => by
    simp [hasDoubleStar] at h
    have hrest : hasDoubleStar (d :: rest) = false := h.2
    by_cases hs : c = '*'
    · subst hs
      have hd : ¬ d = '*' := h.1 rfl
      rw [vibecode_tokenize_single_star d rest hd, nanocode_tokenize_single_star d rest hd,
        tokenize_agree (d :: rest) hrest]
    · by_cases hq : c = '?'
      · subst hq
        have hv : Vibecode.tokenize ('?' :: d :: rest) =
            .anyOne :: Vibecode.tokenize (d :: rest) := rfl
        have hn : Nanocode.tokenize ('?' :: d :: rest) =
            .anyOne :: Nanocode.tokenize (d :: rest) := rfl
        rw [hv, hn, tokenize_agree (d :: rest) hrest]
      · rw [vibecode_tokenize_literal c (d :: rest) hs hq,
          nanocode_tokenize_literal c (d :: rest) hs hq,
          tokenize_agree (d :: rest) hrest]

/-- Claim C10 (amended): for every pattern containing no `**` and every
path, the streaming variant's `matchPattern` (src/vibecode.js) and the
non-streaming variant's `matchPattern` (src/unnamed/part_000) return the
same boolean.  (On patterns with `**` they genuinely differ; see the
counterexample.) -/
theorem matchPattern_agree (pattern path : List Char)
    (h : hasDoubleStar pattern = false) :
    Vibecode.matchPattern path pattern = Nanocode.matchPattern path pattern := by
  rw [Vibecode.matchPattern, Nanocode.matchPattern, tokenize_agree pattern h]

/-- Witness for the amended C10 at pattern `*.js`, path `a.js`. -/
theorem matchPattern_agree_witness :
    hasDoubleStar (String.toList "*.js") = false ∧
    Vibecode.matchPattern (String.toList "a.js") (String.toList "*.js") =
      Nanocode.matchPattern (String.toList "a.js") (String.toList "*.js") :=
  ⟨by decide, matchPattern_agree (String.toList "*.js") (String.toList "a.js") (by decide)⟩

/-- Counterexample to claim C10 as stated: on the pattern `**` and the path
`a/b` the two matchers disagree — the vibecode chain compiles `**` to `.*`
(which crosses `/`), while the nanocode chain compiles it to `.[^/]*`
(one character, then a separator-free run). -/
theorem matchPattern_variants_differ_cex :
    Vibecode.matchPattern (String.toList "a/b") (String.toList "**") = true ∧
    Nanocode.matchPattern (String.toList "a/b") (String.toList "**") = false := by
  decide

/-! ## The tool dispatcher (C9) and the tool round (C1) -/

/-- Claim C9 (confirmed): `runTool` never propagates a failure: for every
tool table, tool name (registered or not) and argument value, either the
named tool exists, its handler returns normally, and `runTool` returns the
handler's string unchanged — or the result is a textual error starting with
`error: ` (unknown tool names hit the `TypeError` of `TOOLS[name].fn` and
are caught by the same `try`/`catch` as handler exceptions). -/
theorem runTool_no_propagate {α : Type}
    (tools : List Char → Option (α → Except (List Char) (List Char)))
    (name : List Char) (args : α) :
    (∃ fn s, tools name = some fn ∧ fn args = .ok s ∧ runTool tools name args = s) ∨
    (String.toList "error: ") <+: runTool tools name args := by
  cases htool : tools name with
  | none =>
    refine Or.inr ⟨unknownToolMsg, ?_⟩
    simp only [runTool, htool]
  | some fn =>
    cases hfn : fn args with
    | ok s =>
      refine Or.inl ⟨fn, s, rfl, hfn, ?_⟩
      simp only [runTool, htool, hfn]
    | error msg =>
      refine Or.inr ⟨msg, ?_⟩
      simp only [runTool, htool, hfn]

/-- Claim C1 (amended): when one tool call's accumulated arguments fail to
parse as JSON, the whole round aborts at that call: the calls before it (in
order) are executed and get their tool-result messages, but the failing call
and every sibling after it get none, and the exception flag reaches the
turn-boundary `catch`. -/
theorem runToolRound_aborts {α : Type} (parse : List Char → Option α)
    (tools : List Char → Option (α → Except (List Char) (List Char))) :
    ∀ (pre : List AssembledCall) (bad : AssembledCall) (post : List AssembledCall),
      (∀ c ∈ pre, (parse c.arguments).isSome = true) →
      parse bad.arguments = none →
      (runToolRound parse tools (pre ++ bad :: post)).2 = false ∧
      (runToolRound parse tools (pre ++ bad :: post)).1.map ToolMsg.tool_call_id =
        pre.map AssembledCall.id
  | [], bad, post, _, hbad => by
    rw [List.nil_append, runToolRound, hbad]
    exact ⟨rfl, rfl⟩
  | c :: pre, bad, post, hpre, hbad => by
    have hc : (parse c.arguments).isSome = true := hpre c (by simp)
    obtain ⟨a, ha⟩ := Option.isSome_iff_exists.1 hc
    rw [List.cons_append, runToolRound, ha]
    have ih := runToolRound_aborts parse tools pre bad post
      (fun d hd => hpre d (by simp [hd])) hbad
    simpa using ih

/-- Witness for the amended C1: with a parse function that accepts only the
argument text `j`, a round of three calls whose middle call carries
unparseable arguments produces exactly one tool message (for the first
call), and the abort flag. -/
theorem runToolRound_aborts_witness :
    (∀ c ∈ [(⟨some ['1'], String.toList "read", ['j']⟩ : AssembledCall)],
      ((fun s => if s = ['j'] then some () else none) c.arguments).isSome = true) ∧
    ((fun (s : List Char) => if s = ['j'] then some () else none)
      (⟨some ['2'], String.toList "glob", ['x']⟩ : AssembledCall).arguments) = none ∧
    (runToolRound (fun s => if s = ['j'] then some () else none)
      (fun _ => some fun _ => .ok (String.toList "ok"))
      ([⟨some ['1'], String.toList "read", ['j']⟩] ++
        (⟨some ['2'], String.toList "glob", ['x']⟩ : AssembledCall) ::
        [⟨some ['3'], String.toList "grep", ['j']⟩])).2 = false ∧
    (runToolRound (fun s => if s = ['j'] then some () else none)
      (fun _ => some fun _ => .ok (String.toList "ok"))
      ([⟨some ['1'], String.toList "read", ['j']⟩] ++
        (⟨some ['2'], String.toList "glob", ['x']⟩ : AssembledCall) ::
        [⟨some ['3'], String.toList "grep", ['j']⟩])).1.map ToolMsg.tool_call_id =
      [⟨some ['1'], String.toList "read", ['j']⟩].map AssembledCall.id :=
  ⟨by decide, by decide,
   (runToolRound_aborts _ _ _ _ _ (by decide) (by decide)).1,
   (runToolRound_aborts _ _ _ _ _ (by decide) (by decide)).2⟩

/-- Counterexample to claim C1 as stated: in a round of two tool calls whose
*first* call has malformed arguments, the sibling second call — whose
arguments parse fine — is never executed and gets no tool-result message:
the round produces zero messages instead of two. -/
theorem runToolRound_sibling_cex :
    (runToolRound (fun s => if s = ['j'] then some () else none)
      (fun _ => some fun _ => .ok (String.toList "ok"))
      [⟨some ['1'], String.toList "read", ['x']⟩,
       ⟨some ['2'], String.toList "glob", ['j']⟩]).1 = [] ∧
    ((fun (s : List Char) => if s = ['j'] then some () else none) ['j']).isSome = true ∧
    (runToolRound (fun s => if s = ['j'] then some () else none)
      (fun _ => some fun _ => .ok (String.toList "ok"))
      [⟨some ['1'], String.toList "read", ['x']⟩,
       ⟨some ['2'], String.toList "glob", ['j']⟩]).2 = false := by
  refine ⟨?_, ?_, ?_⟩ <;> decide

/-! ## The streaming tool-call assembler (C4) -/

/-- Processing any fragment list starting from an arbitrary array state: the
slot at `i` is the initial slot extended by all arriving fragments with index
`i`, or — when the slot was empty — exactly the specification accumulator
`specAt`. -/
theorem foldl_applyFragment :
    ∀ (frags : List Fragment) (g : Nat → Option ToolCallAcc) (i : Nat),
      (frags.foldl applyFragment g) i =
        match g i with
        | some acc => some (extendAcc acc (fragmentsAt frags i))
        | none => specAt frags i
  | [], g, i => by
    cases hg : g i <;> simp [fragmentsAt, specAt, extendAcc, hg]
  | f :: rest, g, i => by
    rw [List.foldl_cons, foldl_applyFragment rest (applyFragment g f) i]
    by_cases hi : i = f.index
    · subst hi
      have hfa : fragmentsAt (f :: rest) f.index = f :: fragmentsAt rest f.index := by
        simp [fragmentsAt]
      cases hg : g f.index with
      | none =>
        simp only [applyFragment, if_pos rfl, hg, Option.getD_none]
        simp [specAt, extendAcc, hfa]
      | some acc =>
        simp only [applyFragment, if_pos rfl, hg, Option.getD_some]
        simp [specAt, extendAcc, hfa, List.append_assoc]
    · have hfa : fragmentsAt (f :: rest) i = fragmentsAt rest i := by
        simp [fragmentsAt, Ne.symm hi]
      simp only [applyFragment, if_neg hi]
      cases hg : g i <;> simp [hg, specAt, extendAcc, hfa]

/-- The final array state equals the per-index specification. -/
theorem assembleFinal_eq_specAt (frags : List Fragment) :
    assembleFinal frags = specAt frags := by
  funext i
  have h := foldl_applyFragment frags (fun _ => none) i
  simpa [assembleFinal] using h

/-- Claim C4 (confirmed): the assembler produces exactly one tool call per
index that received data — the compacted, index-ordered enumeration of
`specAt`, where `specAt i` is the `id` of the first fragment at `i` together
with the in-arrival-order concatenations of its `name` and `arguments`
pieces, and is `none` for indices with no data.  The second conjunct is the
spec's out-of-order example: fragments arriving at indices `[1, 0, 1]` yield
a dense result ordered `[0, 1]`, with the two index-1 fragments merged. -/
theorem assemble_spec :
    (∀ frags : List Fragment,
      assemble frags = (List.range (arrayLength frags)).filterMap (specAt frags)) ∧
    assemble [⟨1, some ['b'], String.toList "gl", String.toList "ob"⟩,
              ⟨0, some ['a'], String.toList "read", String.toList "x"⟩,
              ⟨1, none, String.toList "X", String.toList "y"⟩] =
      [⟨some ['a'], String.toList "read", String.toList "x"⟩,
       ⟨some ['b'], String.toList "glX", String.toList "oby"⟩] :=
  ⟨fun frags => by rw [assemble, assembleFinal_eq_specAt], by decide⟩

/-! ## Lines: `splitNl`, `joinSep`, `numberLines` (C7, C8) -/

/-- `splitNl` never returns the empty list. -/
theorem splitNl_ne_nil : ∀ (s : List Char), splitNl s ≠ []
  | [] => by simp [splitNl]
  | c :: rest => by
    rw [splitNl]
    by_cases hc : c = '\n'
    · simp [hc]
    · simp only [if_neg hc]
      cases h : splitNl rest <;> simp

/-- No piece returned by `splitNl` contains a newline. -/
theorem splitNl_no_nl : ∀ (s : List Char), ∀ l ∈ splitNl s, '\n' ∉ l
  | [], l, hl => by
    simp [splitNl] at hl
    simp [hl]
  | c :: rest, l, hl => by
    rw [splitNl] at hl
    by_cases hc : c = '\n'
    · simp only [hc, if_pos rfl] at hl
      rcases List.mem_cons.1 hl with h | h
      · simp [h]
      · exact splitNl_no_nl rest l h
    · simp only [if_neg hc] at hl
      cases hrest : splitNl rest with
      | nil => exact absurd hrest (splitNl_ne_nil rest)
      | cons p ps =>
        rw [hrest] at hl
        rcases List.mem_cons.1 hl with h | h
        · subst h
          intro hmem
          rcases List.mem_cons.1 hmem with h1 | h1
          · exact hc h1.symm
          · exact splitNl_no_nl rest p (by simp [hrest]) h1
        · exact splitNl_no_nl rest l (by simp [hrest, h])

/-- Prepending a newline-free prefix to a string extends its first line. -/
theorem splitNl_append :
    ∀ (p s : List Char), '\n' ∉ p →
      ∀ (h : List Char) (t : List (List Char)), splitNl s = h :: t →
        splitNl (p ++ s) = (p ++ h) :: t
  | [], s, _, h, t, hs => by simpa using hs
  | c :: p, s, hp, h, t, hs => by
    have hc : ¬ c = '\n' := fun hcc => hp (by simp [hcc])
    rw [List.cons_append, splitNl, if_neg hc,
      splitNl_append p s (fun hm => hp (by simp [hm])) h t hs]
    rfl

/-- Splitting a newline-join recovers the pieces, provided the pieces are
newline-free and the list is nonempty (`Array.prototype.join`/`split('\n')`
round trip). -/
theorem splitNl_joinSep :
    ∀ (ps : List (List Char)), ps ≠ [] → (∀ p ∈ ps, '\n' ∉ p) →
      splitNl (joinSep '\n' ps) = ps
  | [], hne, _ => absurd rfl hne
  | [p], _, hnl => by
    rw [joinSep]
    have := splitNl_append p [] (hnl p (by simp)) [] [] (by rw [splitNl])
    simpa using this
  | p :: q :: ps, _, hnl => by
    rw [joinSep]
    have ih : splitNl (joinSep '\n' (q :: ps)) = q :: ps :=
      splitNl_joinSep (q :: ps) (by simp) (fun r hr => hnl r (by simp [hr]))
    have hstep : splitNl ('\n' :: joinSep '\n' (q :: ps)) = [] :: q :: ps := by
      rw [splitNl, if_pos rfl, ih]
    have := splitNl_append p ('\n' :: joinSep '\n' (q :: ps)) (hnl p (by simp))
      [] (q :: ps) hstep
    simpa using this

/-- Every character produced by `digitChar` is a decimal digit. -/
theorem digitChar_isDigit (d : Nat) : (digitChar d).isDigit = true := by
  unfold digitChar
  split <;> decide

/-- Every character of a rendered number is a decimal digit. -/
theorem natCharsAux_digits :
    ∀ (fuel n : Nat), ∀ c ∈ natCharsAux fuel n, c.isDigit = true
  | 0, n => by simp [natCharsAux]
  | fuel + 1, n => by
    rw [natCharsAux]
    by_cases h : n < 10
    · simp only [if_pos h]
      intro c hc
      rw [List.mem_singleton] at hc
      subst hc
      exact digitChar_isDigit n
    · simp only [if_neg h]
      intro c hc
      rcases List.mem_append.1 hc with h1 | h2
      · exact natCharsAux_digits fuel (n / 10) c h1
      · rw [List.mem_singleton] at h2
        subst h2
        exact digitChar_isDigit (n % 10)

/-- A rendered number contains no newline. -/
theorem natChars_no_nl (n : Nat) : '\n' ∉ natChars n := by
  intro h
  have hd := natCharsAux_digits (n + 1) n '\n' h
  simp [Char.isDigit] at hd

/-- A rendered number is never the empty string. -/
theorem natChars_ne_nil (n : Nat) : natChars n ≠ [] := by
  rw [natChars, natCharsAux]
  by_cases h : n < 10 <;> simp [h]

/-- `trimEnd` only removes characters: membership is preserved downward. -/
theorem trimEnd_subset {l : List Char} {c : Char} (h : c ∈ trimEnd l) : c ∈ l := by
  rw [trimEnd] at h
  have h1 := List.mem_reverse.2 h
  rw [List.reverse_reverse] at h1
  exact List.mem_reverse.1 (List.dropWhile_subset _ h1)

/-- A formatted grep hit contains no newline when neither the path nor the
line does. -/
theorem fmtHit_no_nl {fp line : List Char} (n : Nat)
    (hfp : '\n' ∉ fp) (hline : '\n' ∉ line) : '\n' ∉ fmtHit fp n line := by
  rw [fmtHit]
  intro h
  rcases List.mem_append.1 h with h | h
  · rcases List.mem_append.1 h with h | h
    · exact hfp h
    · rcases List.mem_cons.1 h with h | h
      · exact absurd h (by decide)
      · exact natChars_no_nl n h
  · rcases List.mem_cons.1 h with h | h
    · exact absurd h (by decide)
    · exact hline (trimEnd_subset h)

/-- `numberLines` preserves the number of lines. -/
theorem numberLines_length :
    ∀ (start : Nat) (ls : List (List Char)),
      (numberLines start ls).length = ls.length
  | _, [] => rfl
  | start, _ :: ls => by
    rw [numberLines]
    simp [numberLines_length (start + 1) ls]

/-- The `k`-th numbered line is the `k`-th input line prefixed by its
rendered, left-padded 1-based number and `| `. -/
theorem numberLines_getElem :
    ∀ (start : Nat) (ls : List (List Char)) (k : Nat),
      (numberLines start ls)[k]? =
        (ls[k]?).map fun l => padStart4 (natChars (start + k + 1)) ++ '|' :: ' ' :: l
  | _, [], k => by simp [numberLines]
  | start, l :: ls, 0 => by simp [numberLines]
  | start, l :: ls, k + 1 => by
    rw [numberLines]
    simp only [List.getElem?_cons_succ]
    rw [numberLines_getElem (start + 1) ls k]
    have harith : start + 1 + k + 1 = start + (k + 1) + 1 := by omega
    rw [harith]

/-- Numbered lines contain no newline when the underlying lines do not. -/
theorem numberLines_no_nl :
    ∀ (start : Nat) (ls : List (List Char)), (∀ l ∈ ls, '\n' ∉ l) →
      ∀ q ∈ numberLines start ls, '\n' ∉ q
  | _, [], _, q, hq => by simp [numberLines] at hq
  | start, l :: ls, hls, q, hq => by
    rw [numberLines] at hq
    rcases List.mem_cons.1 hq with h | h
    · subst h
      intro hmem
      rcases List.mem_append.1 hmem with h | h
      · rw [padStart4] at h
        rcases List.mem_append.1 h with h | h
        · exact absurd (List.eq_of_mem_replicate h) (by decide)
        · exact natChars_no_nl (start + 1) h
      · rcases List.mem_cons.1 h with h | h
        · exact absurd h (by decide)
        · rcases List.mem_cons.1 h with h | h
          · exact absurd h (by decide)
          · exact hls l (by simp) h
    · exact numberLines_no_nl (start + 1) ls (fun r hr => hls r (by simp [hr])) q h

/-- Every numbered line is nonempty (it starts with the padded number and
`| `). -/
theorem numberLines_ne_nil :
    ∀ (start : Nat) (ls : List (List Char)), ∀ q ∈ numberLines start ls, q ≠ []
  | _, [], q, hq => by simp [numberLines] at hq
  | start, l :: ls, q, hq => by
    rw [numberLines] at hq
    rcases List.mem_cons.1 hq with h | h
    · subst h
      simp [padStart4]
    · exact numberLines_ne_nil (start + 1) ls q h

/-- A separator-join of nonempty pieces is empty only for the empty list. -/
theorem joinSep_eq_nil_iff (sep : Char) :
    ∀ (ps : List (List Char)), (∀ p ∈ ps, p ≠ []) →
      (joinSep sep ps = [] ↔ ps = [])
  | [], _ => by simp [joinSep]
  | [p], hps => by
    rw [joinSep]
    simp [hps p (by simp)]
  | p :: q :: ps, _ => by
    rw [joinSep]
    constructor
    · intro h
      exact absurd h (by simp)
    · intro h
      exact absurd h (by simp)

/-- Claim C8 (amended): `read` returns exactly the lines of the half-open
range `[offset, offset + limit)` of the file's lines — with offset defaulting
to 0, and the limit defaulting to the full line count when *absent or zero*
(JS `args.limit || lines.length` treats 0 as absent) — each line prefixed by
its 1-based line number rendered in decimal, *left*-padded with spaces to 4
columns (right-aligned, `padStart`), followed by `| `.  Conjuncts: an empty
selection yields the empty string; otherwise the output has exactly one line
per selected line; and the `k`-th output line is the line at index
`offset + k` with its number prefix. -/
theorem read_spec (content : List Char) (off lim : Option Nat) :
    (((splitNl content).drop (off.getD 0)).take
        (effLimit lim (splitNl content).length) = [] →
      Vibecode.read content off lim = []) ∧
    (((splitNl content).drop (off.getD 0)).take
        (effLimit lim (splitNl content).length) ≠ [] →
      (splitNl (Vibecode.read content off lim)).length =
        (((splitNl content).drop (off.getD 0)).take
          (effLimit lim (splitNl content).length)).length) ∧
    (∀ (k : Nat) (line : List Char),
      k < effLimit lim (splitNl content).length →
      (splitNl content)[off.getD 0 + k]? = some line →
      (splitNl (Vibecode.read content off lim))[k]? =
        some (padStart4 (natChars (off.getD 0 + k + 1)) ++ '|' :: ' ' :: line)) := by
  have hslice : jsSlice (splitNl content) (off.getD 0)
      (off.getD 0 + effLimit lim (splitNl content).length) =
      ((splitNl content).drop (off.getD 0)).take
        (effLimit lim (splitNl content).length) := by
    rw [jsSlice]
    exact (List.take_drop (off.getD 0)
      (effLimit lim (splitNl content).length) (splitNl content)).symm
  have hread : Vibecode.read content off lim =
      joinSep '\n' (numberLines (off.getD 0)
        (((splitNl content).drop (off.getD 0)).take
          (effLimit lim (splitNl content).length))) := by
    rw [Vibecode.read, hslice]
  have hroundtrip : ((splitNl content).drop (off.getD 0)).take
        (effLimit lim (splitNl content).length) ≠ [] →
      splitNl (Vibecode.read content off lim) =
        numberLines (off.getD 0)
          (((splitNl content).drop (off.getD 0)).take
            (effLimit lim (splitNl content).length)) := by
    intro hne
    rw [hread]
    apply splitNl_joinSep
    · intro hcontra
      have hlen := congrArg List.length hcontra
      rw [numberLines_length] at hlen
      exact hne (List.eq_nil_of_length_eq_zero (by simpa using hlen))
    · apply numberLines_no_nl
      intro l hl
      exact splitNl_no_nl content l
        (List.drop_subset _ _ (List.take_subset _ _ hl))
  refine ⟨?_, ?_, ?_⟩
  · intro hsel
    rw [hread, hsel]
    rfl
  · intro hne
    rw [hroundtrip hne, numberLines_length]
  · intro k line hk hline
    have hsel : (((splitNl content).drop (off.getD 0)).take
        (effLimit lim (splitNl content).length))[k]? = some line := by
      rw [List.getElem?_take_of_lt hk, List.getElem?_drop]
      exact hline
    have hne : (((splitNl content).drop (off.getD 0)).take
        (effLimit lim (splitNl content).length)) ≠ [] := by
      intro hcontra
      rw [hcontra] at hsel
      simp at hsel
    rw [hroundtrip hne, numberLines_getElem, hsel]
    rfl

/-- Witness for the amended C8: reading `hi\nyo` with no offset and no limit
numbers both lines; the second output line is `   2| yo`. -/
theorem read_spec_witness :
    1 < effLimit none (splitNl (String.toList "hi\nyo")).length ∧
    (splitNl (String.toList "hi\nyo"))[0 + 1]? = some (String.toList "yo") ∧
    (splitNl (Vibecode.read (String.toList "hi\nyo") none none))[1]? =
      some (padStart4 (natChars (0 + 1 + 1)) ++ '|' :: ' ' :: String.toList "yo") :=
  ⟨by decide, by decide,
   (read_spec (String.toList "hi\nyo") none none).2.2 1 (String.toList "yo")
     (by decide) (by decide)⟩

/-- Counterexample to claim C8 as stated: with `limit = 0` the claimed range
`[offset, offset + 0)` is empty, yet `read` returns *all* lines (JS `||`
treats 0 as falsy); and the line number is left-padded (the output starts
with three spaces and then the digit), not right-padded. -/
theorem read_limit_zero_cex :
    Vibecode.read (String.toList "a\nb") none (some 0) = String.toList "   1| a\n   2| b" ∧
    String.toList "   1| a\n   2| b" ≠ [] ∧
    (Vibecode.read (String.toList "a") none none).take 4 = String.toList "   1" := by
  refine ⟨?_, ?_, ?_⟩ <;> decide

/-! ## `grep` (C7) -/

/-- Characters of a separator-join are the separator or characters of the
pieces. -/
theorem mem_joinSep (sep : Char) :
    ∀ (ps : List (List Char)) (c : Char),
      c ∈ joinSep sep ps → c = sep ∨ ∃ p ∈ ps, c ∈ p
  | [], c, h => by simp [joinSep] at h
  | [p], c, h => by
    rw [joinSep] at h
    exact Or.inr ⟨p, by simp, h⟩
  | p :: q :: ps, c, h => by
    rw [joinSep] at h
    rcases List.mem_append.1 h with h | h
    · exact Or.inr ⟨p, by simp, h⟩
    · rcases List.mem_cons.1 h with h | h
      · exact Or.inl h
      · rcases mem_joinSep sep (q :: ps) c h with h | ⟨r, hr, hcr⟩
        · exact Or.inl h
        · exact Or.inr ⟨r, List.mem_cons_of_mem p hr, hcr⟩

/-- Paths produced by the walk contain no newline when the base path and all
entry names are newline-free. -/
theorem walkFiles_no_nl :
    ∀ (pre : List (List Char)) (es : List Entry), noNlNames es = true →
      (∀ s ∈ pre, '\n' ∉ s) →
      ∀ pd ∈ walkFiles pre es, ∀ s ∈ pd.1, '\n' ∉ s
  | _, [], _, _, pd, hpd => by simp [walkFiles] at hpd
  | pre, e :: rest, h, hpre, pd, hpd => by
    rw [walkFiles] at hpd
    simp only [noNlNames, Bool.and_eq_true] at h
    obtain ⟨he, hrest⟩ := h
    rcases List.mem_append.1 hpd with h1 | h1
    · cases e with
      | file n d =>
        rw [walkEntry, List.mem_singleton] at h1
        subst h1
        intro s hs
        rcases List.mem_append.1 hs with hs | hs
        · exact hpre s hs
        · rw [List.mem_singleton] at hs
          subst hs
          exact of_decide_eq_true he
      | dir n sub =>
        rw [walkEntry] at h1
        rw [noNlNamesEntry, Bool.and_eq_true] at he
        refine walkFiles_no_nl (pre ++ [n]) sub he.2 ?_ pd h1
        intro s hs
        rcases List.mem_append.1 hs with hs | hs
        · exact hpre s hs
        · rw [List.mem_singleton] at hs
          subst hs
          exact of_decide_eq_true he.1
    · exact walkFiles_no_nl pre rest hrest hpre pd h1

/-- Characterization of the hits of one file: exactly the formatted,
1-based-numbered, pattern-accepted lines. -/
theorem mem_grepFile (pat : List Char → Bool) (fp content q : List Char) :
    q ∈ grepFile pat fp content ↔
      ∃ (i : Nat) (line : List Char), (splitNl content)[i]? = some line ∧
        pat line = true ∧ q = fmtHit fp (i + 1) line := by
  rw [grepFile]
  simp only [List.mem_filterMap]
  constructor
  · rintro ⟨a, hmem, hfa⟩
    rw [List.mem_enum_iff_getElem?] at hmem
    by_cases hpat : pat a.2 = true
    · rw [if_pos hpat] at hfa
      exact ⟨a.1, a.2, hmem, hpat, (Option.some.inj hfa).symm⟩
    · rw [if_neg hpat] at hfa
      exact absurd hfa (by simp)
  · rintro ⟨i, line, hline, hpat, hq⟩
    refine ⟨(i, line), ?_, ?_⟩
    · rw [List.mem_enum_iff_getElem?]
      exact hline
    · rw [if_pos hpat, hq]

/-- Every hit of the whole walk comes from a walked file, a 1-based line
number, and a pattern-accepted line, in the exact `path:line:content`
format. -/
theorem mem_grepHits (pat : List Char → Bool) (basePath : List (List Char))
    (entries : List Entry) (q : List Char) :
    q ∈ grepHits pat basePath entries ↔
      ∃ segs d, (segs, d) ∈ walkFiles basePath entries ∧
        ∃ (i : Nat) (line : List Char), (splitNl d.content)[i]? = some line ∧
          pat line = true ∧ q = fmtHit (joinSep '/' segs) (i + 1) line := by
  rw [grepHits]
  simp only [List.mem_flatMap]
  constructor
  · rintro ⟨⟨segs, d⟩, hmem, hq⟩
    exact ⟨segs, d, hmem, (mem_grepFile pat _ _ q).1 hq⟩
  · rintro ⟨segs, d, hmem, hrest⟩
    exact ⟨(segs, d), hmem, (mem_grepFile pat _ _ q).2 hrest⟩

/-- Hits are nonempty strings and contain no newline (under the no-newline
naming hypotheses). -/
theorem grepHits_wf (pat : List Char → Bool) (basePath : List (List Char))
    (entries : List Entry) (hbase : ∀ s ∈ basePath, '\n' ∉ s)
    (hnames : noNlNames entries = true) :
    ∀ q ∈ grepHits pat basePath entries, '\n' ∉ q ∧ q ≠ [] := by
  intro q hq
  obtain ⟨segs, d, hmem, i, line, hline, _, hfmt⟩ :=
    (mem_grepHits pat basePath entries q).1 hq
  subst hfmt
  constructor
  · apply fmtHit_no_nl
    · intro hnl
      rcases mem_joinSep '/' segs '\n' hnl with h | ⟨p, hp, hcp⟩
      · exact absurd h (by decide)
      · exact walkFiles_no_nl basePath entries hnames hbase (segs, d) hmem p hp hcp
    · exact splitNl_no_nl d.content line (List.getElem?_mem hline)
  · rw [fmtHit]
    simp

/-- Claim C7 (confirmed): `grep` returns the literal token `none` when there
are no matches; otherwise it returns, newline-joined, at most 50 lines — the
first 50 hits in walk order — and every hit is exactly
`path:lineNumber:content` with a 1-based line number and the line's trailing
whitespace trimmed (`fmtHit`), for a line accepted by the pattern in a
walked file. -/
theorem grep_spec (pat : List Char → Bool) (basePath : List (List Char))
    (entries : List Entry) (hbase : ∀ s ∈ basePath, '\n' ∉ s)
    (hnames : noNlNames entries = true) :
    (grepHits pat basePath entries = [] →
      grep pat basePath entries = String.toList "none") ∧
    (grepHits pat basePath entries ≠ [] →
      splitNl (grep pat basePath entries) =
        (grepHits pat basePath entries).take 50 ∧
      (splitNl (grep pat basePath entries)).length ≤ 50) ∧
    (∀ q ∈ grepHits pat basePath entries,
      ∃ segs d, (segs, d) ∈ walkFiles basePath entries ∧
        ∃ (i : Nat) (line : List Char), (splitNl d.content)[i]? = some line ∧
          pat line = true ∧ q = fmtHit (joinSep '/' segs) (i + 1) line) := by
  refine ⟨?_, ?_, ?_⟩
  · intro hnil
    rw [grep, hnil]
    rfl
  · intro hne
    have htake : (grepHits pat basePath entries).take 50 ≠ [] := by
      intro hcontra
      rcases List.take_eq_nil_iff.1 hcontra with h | h
      · exact absurd h (by decide)
      · exact hne h
    have hwf : ∀ q ∈ (grepHits pat basePath entries).take 50, '\n' ∉ q ∧ q ≠ [] :=
      fun q hq => grepHits_wf pat basePath entries hbase hnames q
        (List.take_subset _ _ hq)
    have hout : joinSep '\n' ((grepHits pat basePath entries).take 50) ≠ [] := by
      intro hcontra
      exact htake ((joinSep_eq_nil_iff '\n' _ (fun p hp => (hwf p hp).2)).1 hcontra)
    have hgrep : grep pat basePath entries =
        joinSep '\n' ((grepHits pat basePath entries).take 50) := by
      rw [grep, if_neg hout]
    constructor
    · rw [hgrep, splitNl_joinSep _ htake (fun p hp => (hwf p hp).1)]
    · rw [hgrep, splitNl_joinSep _ htake (fun p hp => (hwf p hp).1)]
      exact List.length_take_le 50 _
  · exact fun q hq => (mem_grepHits pat basePath entries q).1 hq

/-- Witness for C7: a two-file tree with three matching lines in total; the
output splits into the formatted hits, at most 50, in walk order. -/
theorem grep_spec_witness :
    grepHits (fun l => decide ('a' ∈ l)) []
      [Entry.file (String.toList "f.txt") ⟨0, String.toList "xa \nb\nca"⟩] ≠ [] ∧
    splitNl (grep (fun l => decide ('a' ∈ l)) []
      [Entry.file (String.toList "f.txt") ⟨0, String.toList "xa \nb\nca"⟩]) =
      (grepHits (fun l => decide ('a' ∈ l)) []
        [Entry.file (String.toList "f.txt") ⟨0, String.toList "xa \nb\nca"⟩]).take 50 :=
  ⟨by decide,
   ((grep_spec (fun l => decide ('a' ∈ l)) []
      [Entry.file (String.toList "f.txt") ⟨0, String.toList "xa \nb\nca"⟩]
      (by intro s hs; simp at hs) (by decide)).2.1 (by decide)).1⟩

/-! ## `glob` (C6) -/

/-- A path that ends in a nonempty file name joins to a nonempty string. -/
theorem joinSep_snoc_ne_nil (sep : Char) :
    ∀ (pre : List (List Char)) (n : List Char), n ≠ [] →
      joinSep sep (pre ++ [n]) ≠ []
  | [], n, hn => by
    rw [List.nil_append]
    show n ≠ []
    exact hn
  | p :: pre, n, _ => by
    rw [List.cons_append]
    cases hpre : pre ++ [n] with
    | nil => exact absurd hpre (by simp)
    | cons r rs =>
      show p ++ sep :: joinSep sep (r :: rs) ≠ []
      simp

/-- Every file the walk visits has path segments of the form
`pre' ++ [name]` with a nonempty file name (under `nonEmptyNames`), so its
joined path is a nonempty string. -/
theorem walkFiles_path_ne_nil :
    ∀ (pre : List (List Char)) (es : List Entry), nonEmptyNames es = true →
      ∀ pd ∈ walkFiles pre es, joinSep '/' pd.1 ≠ []
  | _, [], _, pd, hpd => by simp [walkFiles] at hpd
  | pre, e :: rest, h, pd, hpd => by
    rw [walkFiles] at hpd
    simp only [nonEmptyNames, Bool.and_eq_true] at h
    obtain ⟨he, hrest⟩ := h
    rcases List.mem_append.1 hpd with h1 | h1
    · cases e with
      | file n d =>
        rw [walkEntry, List.mem_singleton] at h1
        subst h1
        exact joinSep_snoc_ne_nil '/' pre n (of_decide_eq_true he)
      | dir n sub =>
        rw [walkEntry] at h1
        rw [nonEmptyNamesEntry, Bool.and_eq_true] at he
        exact walkFiles_path_ne_nil (pre ++ [n]) sub he.2 pd h1
    · exact walkFiles_path_ne_nil pre rest hrest pd h1

/-- Characterization of the collected matches: cwd-relative joined path,
matched against the pattern, paired with the file's mtime. -/
theorem mem_globResults (pattern : List Char) (basePath : List (List Char))
    (entries : List Entry) (x : List Char × Int) :
    x ∈ globResults pattern basePath entries ↔
      ∃ pd ∈ walkFiles basePath entries,
        x.1 = joinSep '/' pd.1 ∧
        Vibecode.matchPattern (joinSep '/' pd.1) pattern = true ∧
        x.2 = pd.2.mtime := by
  rw [globResults]
  simp only [List.mem_filterMap]
  constructor
  · rintro ⟨pd, hmem, hx⟩
    by_cases hm : Vibecode.matchPattern (joinSep '/' pd.1) pattern = true
    · rw [if_pos hm] at hx
      obtain ⟨h1, h2⟩ := Prod.mk.injEq _ _ _ _ ▸ Option.some.inj hx
      exact ⟨pd, hmem, h1.symm ▸ rfl, hm, h2.symm ▸ rfl⟩
    · rw [if_neg hm] at hx
      exact absurd hx (by simp)
  · rintro ⟨pd, hmem, hx1, hm, hx2⟩
    refine ⟨pd, hmem, ?_⟩
    rw [if_pos hm, ← hx1, ← hx2]

/-- Claim C6 (amended): `glob` returns the newline-joined paths of exactly
the regular files of the walk whose *cwd-relative* path (the base-path
segments followed by the inner segments — not the walk-root-relative path)
matches the pattern, ordered by non-increasing modification time, and the
literal token `none` when no file matches. -/
theorem glob_spec (pattern : List Char) (basePath : List (List Char))
    (entries : List Entry) (hnames : nonEmptyNames entries = true) :
    ∃ ordered : List (List Char × Int),
      ordered.Perm (globResults pattern basePath entries) ∧
      ordered.Pairwise (fun a b => b.2 ≤ a.2) ∧
      (ordered = [] → glob pattern basePath entries = String.toList "none") ∧
      (ordered ≠ [] →
        glob pattern basePath entries = joinSep '\n' (ordered.map Prod.fst)) := by
  refine ⟨(globResults pattern basePath entries).insertionSort mtimeGe,
    List.perm_insertionSort mtimeGe _, List.sorted_insertionSort mtimeGe _, ?_, ?_⟩
  · intro hnil
    rw [glob, hnil]
    rfl
  · intro hnonnil
    have hpaths : ∀ p ∈ ((globResults pattern basePath entries).insertionSort
        mtimeGe).map Prod.fst, p ≠ [] := by
      intro p hp
      obtain ⟨x, hx, hpx⟩ := List.mem_map.1 hp
      rw [List.mem_insertionSort] at hx
      obtain ⟨pd, hmem, hx1, _, _⟩ :=
        (mem_globResults pattern basePath entries x).1 hx
      rw [← hpx, hx1]
      exact walkFiles_path_ne_nil basePath entries hnames pd hmem
    have hout : joinSep '\n' (((globResults pattern basePath entries).insertionSort
        mtimeGe).map Prod.fst) ≠ [] := by
      intro hcontra
      have := (joinSep_eq_nil_iff '\n' _ hpaths).1 hcontra
      exact hnonnil (by simpa using this)
    rw [glob, if_neg hout]

/-- Witness for the amended C6: two matching files and one non-matching
file; some descending-by-mtime ordering of the matches exists whose joined
paths are the tool's output. -/
theorem glob_spec_witness :
    nonEmptyNames [Entry.file (String.toList "b.txt") ⟨5, []⟩,
      Entry.file (String.toList "a.txt") ⟨9, []⟩,
      Entry.file (String.toList "c.md") ⟨7, []⟩] = true ∧
    ∃ ordered : List (List Char × Int),
      ordered.Perm (globResults (String.toList "*.txt") []
        [Entry.file (String.toList "b.txt") ⟨5, []⟩,
         Entry.file (String.toList "a.txt") ⟨9, []⟩,
         Entry.file (String.toList "c.md") ⟨7, []⟩]) ∧
      ordered.Pairwise (fun a b => b.2 ≤ a.2) ∧
      (ordered = [] → glob (String.toList "*.txt") []
        [Entry.file (String.toList "b.txt") ⟨5, []⟩,
         Entry.file (String.toList "a.txt") ⟨9, []⟩,
         Entry.file (String.toList "c.md") ⟨7, []⟩] = String.toList "none") ∧
      (ordered ≠ [] → glob (String.toList "*.txt") []
        [Entry.file (String.toList "b.txt") ⟨5, []⟩,
         Entry.file (String.toList "a.txt") ⟨9, []⟩,
         Entry.file (String.toList "c.md") ⟨7, []⟩] =
          joinSep '\n' (ordered.map Prod.fst)) :=
  ⟨by decide, glob_spec _ _ _ (by decide)⟩

/-- Counterexample to claim C6 as stated: under base path `d`, the file
`d/x.txt` is matched against its cwd-relative path `d/x.txt` (because the
code uses `path.relative('.', filepath)`), not against its walk-root-relative
path `x.txt`; the pattern `*.txt` matches the walk-root-relative path, yet
the tool reports `none`. -/
theorem glob_walkroot_cex :
    glob (String.toList "*.txt") [String.toList "d"]
      [Entry.file (String.toList "x.txt") ⟨0, []⟩] = String.toList "none" ∧
    Vibecode.matchPattern (String.toList "x.txt") (String.toList "*.txt") = true := by
  refine ⟨?_, ?_⟩ <;> decide
